import Mathlib

/-!
Verification development for the xdel string-resource tool: a model of the
surgical XML editor (`src/xeditor.rs`) and the resource indexer
(`src/index.rs`), with theorems settling the specification's claims.

Rust strings are modelled as lists of characters, streaming XML parse events
as an explicit event list (the XML tokenizer is an external library), and the
u64 line counter of the rewrite loop with explicit modulo-2^64 arithmetic.
-/

/-- Character strings (Rust `String` / `&str`), modelled as lists of characters. -/
abbrev Str := List Char

/-- An XML attribute as the `xml` crate delivers it: local name and value
(the editor and indexer only ever consult `name.local_name` and `value`). -/
structure Attr where
  name : Str
  value : Str
deriving DecidableEq

/-- Parse events delivered by the streaming XML `EventReader`, each start/end
tag carrying the row (0-based line number) that `parser.position()` reports at
that event.  The list holds the events of the document up to — not including —
the `EndDocument` event; `cdata` is a CDATA section, `other` stands for every
event kind the code ignores (characters, whitespace, processing instructions). -/
inductive XEvent where
  | startElement (name : Str) (attrs : List Attr) (row : Nat)
  | endElement (row : Nat)
  | cdata (content : Str)
  | other
deriving DecidableEq

/-- `ElementMatcher` of `src/xeditor.rs`: a target local name plus required
attribute values.  The `HashMap<String, String>` is modelled as an association
list with the map's key-uniqueness irrelevant to lookup semantics. -/
structure ElementMatcher where
  local_name : Str
  local_attribute_values : List (Str × Str)
deriving DecidableEq

/-- `HashMap::get` on the matcher's required-attribute map. -/
def lookupRequired : List (Str × Str) → Str → Option Str
  | [], _ => none
  | (k, v) :: rest, key => if k == key then some v else lookupRequired rest key

/-- The attribute loop of `ElementMatcher::matches`: for each attribute the
ELEMENT carries, if the matcher names it, its value must equal the required
value.  (Required attributes absent from the element are never examined.) -/
def matchesAttrs (vals : List (Str × Str)) : List Attr → Bool
  | [] => true
  | a :: rest =>
    match lookupRequired vals a.name with
    | some required => if required == a.value then matchesAttrs vals rest else false
    | none => matchesAttrs vals rest

/-- `ElementMatcher::matches` (src/xeditor.rs:108-122). -/
def ElementMatcher.matches (m : ElementMatcher) (name : Str) (attrs : List Attr) : Bool :=
  if m.local_name == name then matchesAttrs m.local_attribute_values attrs else false

/-- The line span of a matched element (src/xeditor.rs:15-19). -/
structure ElementLocation where
  start_line : Nat
  end_line : Nat
deriving DecidableEq

/-- The scan loop of `find_location_to_strip` (src/xeditor.rs:21-61), with the
mutable locals as arguments: `inSkipped` (`in_skipped_element`), `startLine`
(`start_line`), `startDepth` (`start_depth`, initially -1), `depth`
(initially 0).  On a start tag the depth is incremented and a matcher hit
records the state; on an end tag the scan returns the span when
`in_skipped_element && depth == start_depth`, and OTHERWISE clears
`in_skipped_element` and decrements the depth.  Reaching the end of the event
list is the `EndDocument` arm returning `None`. -/
def findLocLoop (m : ElementMatcher) :
    List XEvent → Bool → Nat → Int → Int → Option ElementLocation
  | [], _, _, _, _ => none
  | e :: es, inSkipped, startLine, startDepth, depth =>
    match e with
    | .startElement name attrs row =>
      if m.matches name attrs then
        findLocLoop m es true row (depth + 1) (depth + 1)
      else
        findLocLoop m es inSkipped startLine startDepth (depth + 1)
    | .endElement row =>
      if inSkipped && depth == startDepth then
        some ⟨startLine, row⟩
      else
        findLocLoop m es false startLine startDepth (depth - 1)
    | _ => findLocLoop m es inSkipped startLine startDepth depth

/-- `find_location_to_strip` (src/xeditor.rs:21-61). -/
def find_location_to_strip (m : ElementMatcher) (events : List XEvent) :
    Option ElementLocation :=
  findLocLoop m events false 0 (-1) 0

/-- 2^64, the modulus of Rust `u64` arithmetic. -/
def u64Mod : Nat := 18446744073709551616

/-- The rewrite loop of `remove_element` (src/xeditor.rs:74-81): walks the
file's lines with a `u64` counter starting at 0, keeping a line when the
counter is outside `[start_line, end_line]`; the counter is DECREMENTED each
iteration (`line_number -= 1`), which wraps modulo 2^64 (release-build
semantics; a debug build would panic on the underflow).  The result is the
list of lines written out, each followed by a newline. -/
def writeLoop (startL endL : Nat) : List Str → Nat → List Str
  | [], _ => []
  | line :: rest, n =>
    (if n < startL ∨ n > endL then [line] else []) ++
      writeLoop startL endL rest ((n + (u64Mod - 1)) % u64Mod)

/-- `remove_element` (src/xeditor.rs:63-86): find the span, and either rewrite
the lines and report `true`, or leave the file as it was and report `false`.
The file appears twice, as the parser's event stream and as its line list. -/
def remove_element (m : ElementMatcher) (events : List XEvent) (lines : List Str) :
    List Str × Bool :=
  match find_location_to_strip m events with
  | some loc => (writeLoop loc.start_line loc.end_line lines 0, true)
  | none => (lines, false)

/-- `ResourceFile` (src/index.rs:30-35). -/
structure ResourceFile where
  path : Str
  string_definitions : List Str
  string_usages : List Str
deriving DecidableEq

/-- `ResourceIndex` (src/index.rs:37-40). -/
structure ResourceIndex where
  files : List ResourceFile
deriving DecidableEq

/-- `ResourceIndex::files_for_definition` (src/index.rs:47-55): the multimap's
insertion sequence of (identifier, path) pairs, one per declaration per file. -/
def ResourceIndex.files_for_definition (idx : ResourceIndex) : List (Str × Str) :=
  idx.files.flatMap fun f => f.string_definitions.map fun key => (key, f.path)

/-- `ResourceIndex::files_for_usage` (src/index.rs:57-65). -/
def ResourceIndex.files_for_usage (idx : ResourceIndex) : List (Str × Str) :=
  idx.files.flatMap fun f => f.string_usages.map fun key => (key, f.path)

/-- `ResourceIndex::defined_strings` (src/index.rs:67-76): the `HashSet` built
by inserting every definition of every file, modelled as a finite set. -/
def ResourceIndex.defined_strings (idx : ResourceIndex) : Finset Str :=
  (idx.files.flatMap fun f => f.string_definitions).toFinset

/-- `ResourceIndex::used_strings` (src/index.rs:78-87). -/
def ResourceIndex.used_strings (idx : ResourceIndex) : Finset Str :=
  (idx.files.flatMap fun f => f.string_usages).toFinset

/-- `ResourceIndex::unused_strings` (src/index.rs:89-94): set difference of
the defined and used sets. -/
def ResourceIndex.unused_strings (idx : ResourceIndex) : Finset Str :=
  idx.defined_strings \ idx.used_strings

/-- The `\w` word-character class of the regex engine, at the ASCII level. -/
def wordChar (c : Char) : Bool := c.isAlphanum || c == '_'

/-- Whether `pat` occurs as a leading prefix of `s`. -/
def isPrefixOfB : Str → Str → Bool
  | [], _ => true
  | _ :: _, [] => false
  | a :: as, b :: bs => a == b && isPrefixOfB as bs

/-- Whether `pat` occurs as a contiguous substring of `s` (Rust
`str::contains`). -/
def containsSub (pat : Str) : Str → Bool
  | [] => pat.isEmpty
  | c :: cs => isPrefixOfB pat (c :: cs) || containsSub pat cs

/-- The marker substring `"@string"` whose presence gates the regex search in
`index_xml_file` (src/index.rs:141,154). -/
def atStringMarker : Str := ['@', 's', 't', 'r', 'i', 'n', 'g']

/-- The literal head `"@string/"` of the usage regex `@string/(\w+)`. -/
def atStringPat : Str := atStringMarker ++ ['/']

/-- A match of the regex `@string/(\w+)` anchored at the head of `s`: the
captured `\w+` group (maximal run of at least one word character). -/
def refCaptureAt (s : Str) : Option Str :=
  if isPrefixOfB atStringPat s then
    match s.drop 8 with
    | [] => none
    | c :: rest => if wordChar c then some (c :: rest.takeWhile wordChar) else none
  else none

/-- `Regex::captures` of `@string/(\w+)`, group 1: the leftmost match wins. -/
def findStringRef : Str → Option Str
  | [] => none
  | c :: cs =>
    match refCaptureAt (c :: cs) with
    | some id => some id
    | none => findStringRef cs

/-- Usages extracted from one piece of text — an attribute value
(src/index.rs:140-147) or a CDATA section (src/index.rs:153-161): gated on
`contains("@string")`, then at most the FIRST capture of `@string/(\w+)` is
pushed. -/
def usesOfText (t : Str) : List Str :=
  if containsSub atStringMarker t then
    match findStringRef t with
    | some id => [id]
    | none => []
  else []

/-- The element local name `"string"`. -/
def stringName : Str := ['s', 't', 'r', 'i', 'n', 'g']

/-- The attribute local name `"name"`. -/
def nameAttr : Str := ['n', 'a', 'm', 'e']

/-- The declarations one start tag contributes (src/index.rs:148-150): for a
`string` element, the value of every attribute whose local name is `name`. -/
def defsOfStart (name : Str) (attrs : List Attr) : List Str :=
  if name == stringName then (attrs.filter fun a => a.name == nameAttr).map Attr.value
  else []

/-- The usages one start tag contributes: one pass over its attributes. -/
def usesOfAttrs (attrs : List Attr) : List Str :=
  attrs.flatMap fun a => usesOfText a.value

/-- The declarations an event contributes. -/
def defsOfEvent : XEvent → List Str
  | .startElement name attrs _ => defsOfStart name attrs
  | _ => []

/-- The usages an event contributes. -/
def usesOfEvent : XEvent → List Str
  | .startElement _ attrs _ => usesOfAttrs attrs
  | .cdata d => usesOfText d
  | _ => []

/-- The event loop of `Indexer::index_xml_file` (src/index.rs:133-166),
returning `(string_definitions, string_usages)` in push order. -/
def indexXmlLoop : List XEvent → List Str × List Str
  | [] => ([], [])
  | e :: es =>
    let rest := indexXmlLoop es
    (defsOfEvent e ++ rest.1, usesOfEvent e ++ rest.2)

/-- `Indexer::index_xml_file` (src/index.rs:123-173). -/
def index_xml_file (path : Str) (events : List XEvent) : ResourceFile :=
  ⟨path, (indexXmlLoop events).1, (indexXmlLoop events).2⟩

/-- A match of the grep regex `R.string.(\w+)` anchored at the head of `s`.
The two dots are unescaped regex wildcards, each matching ANY character other
than a newline.  Returns the `\w+` capture — the characters of the match after
its first 9, exactly what the byte slice `[9..]` in `index_source_file`
extracts — together with the remainder of the text after the whole match. -/
def srcMatchAt (s : Str) : Option (Str × Str) :=
  match s with
  | r :: c1 :: s1 :: t1 :: r1 :: i1 :: n1 :: g1 :: c2 :: rest =>
    if r == 'R' && c1 != '\n' && s1 == 's' && t1 == 't' && r1 == 'r' && i1 == 'i'
        && n1 == 'n' && g1 == 'g' && c2 != '\n' then
      match rest with
      | [] => none
      | c :: rest2 =>
        if wordChar c then some (c :: rest2.takeWhile wordChar, rest2.dropWhile wordChar)
        else none
    else none
  | _ => none

/-- `Matcher::find_iter` over one line: non-overlapping leftmost matches of
`R.string.(\w+)`, continuing after each match; the fuel argument (instantiated
with the line length, an upper bound on the number of scan steps) makes the
scan structurally recursive. -/
def srcFindIter : Nat → Str → List Str
  | 0, _ => []
  | _ + 1, [] => []
  | fuel + 1, c :: cs =>
    match srcMatchAt (c :: cs) with
    | some (id, rest) => id :: srcFindIter fuel rest
    | none => srcFindIter fuel cs

/-- The per-line closure of `index_source_file` (src/index.rs:181-190). -/
def index_source_line (line : Str) : List Str :=
  srcFindIter line.length line

/-- `Indexer::index_source_file` (src/index.rs:175-198): usages from every
line, and an always-empty definition list. -/
def index_source_file (path : Str) (lines : List Str) : ResourceFile :=
  ⟨path, [], lines.flatMap index_source_line⟩

/-- Follows the spec's words, not the code: the literal usage-reference
pattern — the exact text `R.string.` followed by at least one identifier
character — anchored at the head of `s`. -/
def literalRefAt (s : Str) : Bool :=
  isPrefixOfB ['R', '.', 's', 't', 'r', 'i', 'n', 'g', '.'] s &&
    (match s.drop 9 with
     | [] => false
     | c :: _ => wordChar c)

/-- Follows the spec's words, not the code: the number of positions of `s` at
which the literal usage-reference pattern occurs. -/
def countLiteralRefs : Str → Nat
  | [] => 0
  | c :: cs => (if literalRefAt (c :: cs) then 1 else 0) + countLiteralRefs cs

/-- Model of the bincode snapshot encoding used by `Indexer::serialize`
(src/index.rs:278-290; the byte-level packing of the external library is
abstracted to one numeric token per value): a string is its length token
followed by one codepoint token per character. -/
def encodeStr (s : Str) : List Nat := s.length :: s.map Char.toNat

/-- Decode `n` character tokens. -/
def decodeChars : Nat → List Nat → Option (Str × List Nat)
  | 0, ts => some ([], ts)
  | _ + 1, [] => none
  | n + 1, t :: ts =>
    match decodeChars n ts with
    | some (cs, rest) => some (Char.ofNat t :: cs, rest)
    | none => none

/-- Decode one length-prefixed string. -/
def decodeStr : List Nat → Option (Str × List Nat)
  | [] => none
  | n :: ts => decodeChars n ts

/-- A sequence of strings: length token, then the encoded elements. -/
def encodeStrList (l : List Str) : List Nat := l.length :: l.flatMap encodeStr

/-- Decode `n` strings in sequence. -/
def decodeStrsAux : Nat → List Nat → Option (List Str × List Nat)
  | 0, ts => some ([], ts)
  | n + 1, ts =>
    match decodeStr ts with
    | some (s, ts1) =>
      match decodeStrsAux n ts1 with
      | some (l, rest) => some (s :: l, rest)
      | none => none
    | none => none

/-- Decode one length-prefixed string list. -/
def decodeStrList : List Nat → Option (List Str × List Nat)
  | [] => none
  | n :: ts => decodeStrsAux n ts

/-- A `ResourceFile`: its three fields in declaration order. -/
def encodeFile (f : ResourceFile) : List Nat :=
  encodeStr f.path ++ encodeStrList f.string_definitions ++ encodeStrList f.string_usages

/-- Decode one `ResourceFile`. -/
def decodeFile (ts : List Nat) : Option (ResourceFile × List Nat) :=
  match decodeStr ts with
  | some (p, ts1) =>
    match decodeStrList ts1 with
    | some (d, ts2) =>
      match decodeStrList ts2 with
      | some (u, rest) => some (⟨p, d, u⟩, rest)
      | none => none
    | none => none
  | none => none

/-- Decode `n` `ResourceFile`s in sequence. -/
def decodeFilesAux : Nat → List Nat → Option (List ResourceFile × List Nat)
  | 0, ts => some ([], ts)
  | n + 1, ts =>
    match decodeFile ts with
    | some (f, ts1) =>
      match decodeFilesAux n ts1 with
      | some (l, rest) => some (f :: l, rest)
      | none => none
    | none => none

/-- `Indexer::serialize` (src/index.rs:278-290): the snapshot is the encoded
backing record list. -/
def serializeIndex (idx : ResourceIndex) : List Nat :=
  idx.files.length :: idx.files.flatMap encodeFile

/-- `Indexer::deserialize` (src/index.rs:292-298): decode the record list back
into a `ResourceIndex` (bincode ignores trailing input). -/
def deserializeIndex (ts : List Nat) : Option ResourceIndex :=
  match ts with
  | [] => none
  | n :: ts =>
    match decodeFilesAux n ts with
    | some (files, _) => some ⟨files⟩
    | none => none

/-- Modelled from the spec: the command layer (`counts`, `list-unused`,
`remove-unused`) is not present under `src/`; the spec's denylist is "a fixed
set of substrings reserved for gender/emoji-variant resources" whose elements
it does not enumerate, so the denylist is a parameter here.  An identifier is
clean when its name contains none of the denylist substrings. -/
def cleanOfDenylist (deny : List Str) (id : Str) : Bool :=
  deny.all fun s => !(containsSub s id)

/-- Modelled from the spec: the denylist-filtered unused set, "applied
identically wherever unused is reported or acted upon". -/
def filtered_unused (deny : List Str) (idx : ResourceIndex) : Finset Str :=
  idx.unused_strings.filter fun id => cleanOfDenylist deny id = true

/-- Modelled from the spec: `counts` reports the numbers of declared, used,
and denylist-filtered unused identifiers. -/
def counts_command (deny : List Str) (idx : ResourceIndex) : Nat × Nat × Nat :=
  (idx.defined_strings.card, idx.used_strings.card, (filtered_unused deny idx).card)

/-- Modelled from the spec: `list-unused` prints every filtered-unused
identifier (the reported set; lexicographic print order is presentation). -/
def list_unused_command (deny : List Str) (idx : ResourceIndex) : Finset Str :=
  filtered_unused deny idx

/-- Modelled from the spec: `remove-unused` acts on every filtered-unused
identifier whose name starts with the optional prefix argument. -/
def remove_unused_targets (deny : List Str) (pre : Str) (idx : ResourceIndex) :
    Finset Str :=
  (filtered_unused deny idx).filter fun id => isPrefixOfB pre id = true

/-- Whether an event is a start tag accepted by the matcher. -/
def isMatchingStart (m : ElementMatcher) : XEvent → Bool
  | .startElement name attrs _ => m.matches name attrs
  | _ => false

/-- Whether an event is a start tag of a `string` element. -/
def isStringStart : XEvent → Bool
  | .startElement name _ _ => name == stringName
  | _ => false

/-- The texts of an event that the XML extractor scans for `@string` usages:
attribute values of a start tag, and the content of a CDATA section. -/
def eventTexts : XEvent → List Str
  | .startElement _ attrs _ => attrs.map Attr.value
  | .cdata d => [d]
  | _ => []

/-- The acceptance predicate as the specification words it: local names equal,
and the element CARRIES every attribute the matcher requires, with exactly the
required value. -/
def specMatcherAccepts (m : ElementMatcher) (name : Str) (attrs : List Attr) : Prop :=
  name = m.local_name ∧
    ∀ kv ∈ m.local_attribute_values, ∃ a ∈ attrs, a.name = kv.1 ∧ a.value = kv.2

instance (m : ElementMatcher) (name : Str) (attrs : List Attr) :
    Decidable (specMatcherAccepts m name attrs) :=
  inferInstanceAs (Decidable (name = m.local_name ∧
    ∀ kv ∈ m.local_attribute_values, ∃ a ∈ attrs, a.name = kv.1 ∧ a.value = kv.2))

/-- The matcher for `<string name="a">`, used by the editor scenarios. -/
def matcherA : ElementMatcher := ⟨stringName, [(nameAttr, ['a'])]⟩

/-- A matcher for `<string name="z">`, matching nothing in the scenarios. -/
def matcherZ : ElementMatcher := ⟨stringName, [(nameAttr, ['z'])]⟩

/-- The event stream of the spec's nested example file:
line 0 `<resources>`, line 1 `<string name="a">x<nested/></string>`,
line 2 `<string name="b">y</string>`, line 3 `</resources>`. -/
def nestedEvents : List XEvent :=
  [.startElement ['r', 'e', 's', 'o', 'u', 'r', 'c', 'e', 's'] [] 0,
   .startElement stringName [⟨nameAttr, ['a']⟩] 1,
   .other,
   .startElement ['n', 'e', 's', 't', 'e', 'd'] [] 1,
   .endElement 1,
   .endElement 1,
   .startElement stringName [⟨nameAttr, ['b']⟩] 2,
   .other,
   .endElement 2,
   .endElement 3]

/-- The event stream of a flat example file:
line 0 `<resources>`, line 1 `<string name="a">x</string>`,
line 2 `</resources>`. -/
def flatEvents : List XEvent :=
  [.startElement ['r', 'e', 's', 'o', 'u', 'r', 'c', 'e', 's'] [] 0,
   .startElement stringName [⟨nameAttr, ['a']⟩] 1,
   .other,
   .endElement 1,
   .endElement 2]

/-- The lines of the flat example file. -/
def resLines : List Str :=
  ["<resources>".toList,
   "  <string name=\"a\">x</string>".toList,
   "</resources>".toList]

theorem mem_defined_strings (idx : ResourceIndex) (x : Str) :
    x ∈ idx.defined_strings ↔ ∃ f ∈ idx.files, x ∈ f.string_definitions := by
  simp [ResourceIndex.defined_strings]

theorem mem_used_strings (idx : ResourceIndex) (x : Str) :
    x ∈ idx.used_strings ↔ ∃ f ∈ idx.files, x ∈ f.string_usages := by
  simp [ResourceIndex.used_strings]

theorem matchesAttrs_iff (vals : List (Str × Str)) (attrs : List Attr) :
    matchesAttrs vals attrs = true ↔
      ∀ a ∈ attrs, ∀ v, lookupRequired vals a.name = some v → a.value = v := by
  induction attrs with
  | nil => simp [matchesAttrs]
  | cons a rest ih =>
    rw [List.forall_mem_cons]
    cases h : lookupRequired vals a.name with
    | none =>
      simp only [matchesAttrs, h, ih]
      constructor
      · intro hr
        exact ⟨fun v hv => absurd hv (by simp), hr⟩
      · intro hr
        exact hr.2
    | some required =>
      simp only [matchesAttrs, h]
      by_cases hv : required = a.value
      · subst hv
        simp only [beq_self_eq_true, if_true, ih]
        constructor
        · intro hr
          refine ⟨fun v hveq => ?_, hr⟩
          cases hveq
          rfl
        · intro hr
          exact hr.2
      · have hbeq : (required == a.value) = false := by
          simp [hv]
        simp only [hbeq, Bool.false_eq_true, if_false]
        constructor
        · intro hfalse
          exact absurd hfalse (by simp)
        · intro hr
          exact absurd (hr.1 required rfl).symm hv

/-- C1 (the claim fails on the code): on the spec's nested example the matched
element is present — its start tag satisfies the matcher — yet the scan returns
no location at all: the end tag of the nested child arrives at a depth unequal
to the recorded match depth and the code then CLEARS `in_skipped_element`
instead of staying inside the match, so the matched element's own end tag no
longer terminates the scan and the element is never removed. -/
theorem find_location_misses_nested_match :
    matcherA.matches stringName [⟨nameAttr, ['a']⟩] = true ∧
      find_location_to_strip matcherA nestedEvents = none := by decide

/-- C2 (the claim fails on the code): on the flat example the location of the
matched element is found (the middle line, span `[1, 1]`), yet the rewrite
keeps every original line: the rewrite loop DECREMENTS its u64 line counter,
so after the first line the counter wraps to 2^64 - 1 and is never again
inside the span. -/
theorem remove_element_keeps_span_lines :
    find_location_to_strip matcherA flatEvents = some ⟨1, 1⟩ ∧
      remove_element matcherA flatEvents resLines = (resLines, true) := by decide

/-- C3 counterexample: a `string` element carrying NO attributes is accepted
by a matcher that requires `name="a"`, so acceptance does not imply that the
element carries every required attribute. -/
theorem matches_accepts_missing_required_attr :
    matcherA.matches stringName [] = true ∧
      ¬ specMatcherAccepts matcherA stringName [] := by decide

/-- C3 (amended): the matcher accepts an element iff the local names are equal
and every attribute PRESENT on the element that the matcher names carries
exactly the required value; a required attribute the element does not carry is
never checked, and attributes not named in the matcher never affect the
result. -/
theorem matches_iff_present_attrs_agree (m : ElementMatcher) (name : Str)
    (attrs : List Attr) :
    m.matches name attrs = true ↔
      m.local_name = name ∧
        ∀ a ∈ attrs, ∀ v,
          lookupRequired m.local_attribute_values a.name = some v → a.value = v := by
  unfold ElementMatcher.matches
  by_cases h : m.local_name = name
  · simp [h, matchesAttrs_iff]
  · have hbeq : (m.local_name == name) = false := by simp [h]
    simp [hbeq, h]

/-- C4: an identifier is in `unused_strings` iff some file's record declares
it and no file's record uses it; `unused_strings` is exactly the defined set
minus the used set, so a reference anywhere — in any record, regardless of
which file declares the identifier — removes it from the unused set. -/
theorem unused_strings_iff (idx : ResourceIndex) (x : Str) :
    x ∈ idx.unused_strings ↔
      (∃ f ∈ idx.files, x ∈ f.string_definitions) ∧
        ¬ ∃ f ∈ idx.files, x ∈ f.string_usages := by
  rw [ResourceIndex.unused_strings, Finset.mem_sdiff, mem_defined_strings,
    mem_used_strings]

/-- C6 (the claim fails on the code): the dots of the search pattern are
unescaped regex wildcards, so a line containing no occurrence of the literal
usage-reference pattern `R.string.` still yields a usage entry — here the text
`RQstringQfoo` produces the usage `foo` — while declarations are indeed never
produced. -/
theorem source_extractor_matches_wildcard_dots :
    (index_source_file "Test.java".toList
        ["int x = RQstringQfoo;".toList]).string_usages = ["foo".toList] ∧
      countLiteralRefs "int x = RQstringQfoo;".toList = 0 ∧
      (index_source_file "Test.java".toList
        ["int x = RQstringQfoo;".toList]).string_definitions = [] := by decide

theorem decodeChars_encode (s : Str) (r : List Nat) :
    decodeChars s.length (s.map Char.toNat ++ r) = some (s, r) := by
  induction s with
  | nil => rfl
  | cons c cs ih => simp [decodeChars, ih, Char.ofNat_toNat]

theorem decodeStr_encode (s : Str) (r : List Nat) :
    decodeStr (encodeStr s ++ r) = some (s, r) := by
  simp [encodeStr, decodeStr, decodeChars_encode]

theorem decodeStrsAux_encode (l : List Str) (r : List Nat) :
    decodeStrsAux l.length (l.flatMap encodeStr ++ r) = some (l, r) := by
  induction l with
  | nil => rfl
  | cons s ss ih =>
    simp [decodeStrsAux, List.flatMap_cons, List.append_assoc, decodeStr_encode, ih]

theorem decodeStrList_encode (l : List Str) (r : List Nat) :
    decodeStrList (encodeStrList l ++ r) = some (l, r) := by
  simp [encodeStrList, decodeStrList, decodeStrsAux_encode]

theorem decodeFile_encode (f : ResourceFile) (r : List Nat) :
    decodeFile (encodeFile f ++ r) = some (f, r) := by
  simp [encodeFile, decodeFile, List.append_assoc, decodeStr_encode, decodeStrList_encode]

theorem decodeFilesAux_encode (l : List ResourceFile) (r : List Nat) :
    decodeFilesAux l.length (l.flatMap encodeFile ++ r) = some (l, r) := by
  induction l with
  | nil => rfl
  | cons f fs ih =>
    simp [decodeFilesAux, List.flatMap_cons, List.append_assoc, decodeFile_encode, ih]

theorem deserialize_serialize (idx : ResourceIndex) :
    deserializeIndex (serializeIndex idx) = some idx := by
  have h := decodeFilesAux_encode idx.files []
  rw [List.append_nil] at h
  simp [serializeIndex, deserializeIndex, h]

/-- C5: deserializing the serialized snapshot recovers an index whose defined
set, used set, and per-identifier (identifier, file) association lists for
definitions and for usages all coincide with the original's. -/
theorem cache_roundtrip_preserves_views (idx : ResourceIndex) :
    ∃ idx2, deserializeIndex (serializeIndex idx) = some idx2 ∧
      idx2.defined_strings = idx.defined_strings ∧
      idx2.used_strings = idx.used_strings ∧
      idx2.files_for_definition = idx.files_for_definition ∧
      idx2.files_for_usage = idx.files_for_usage :=
  ⟨idx, deserialize_serialize idx, rfl, rfl, rfl, rfl⟩

theorem findLocLoop_none_of_no_match (m : ElementMatcher) (events : List XEvent)
    (h : ∀ e ∈ events, isMatchingStart m e = false) :
    ∀ sl sd d, findLocLoop m events false sl sd d = none := by
  induction events with
  | nil =>
    intro sl sd d
    rfl
  | cons e es ih =>
    intro sl sd d
    have he := h e (List.mem_cons_self e es)
    have hes : ∀ x ∈ es, isMatchingStart m x = false :=
      fun x hx => h x (List.mem_cons_of_mem e hx)
    cases e with
    | startElement name attrs row =>
      have hm : m.matches name attrs = false := he
      simp [findLocLoop, hm, ih hes]
    | endElement row => simp [findLocLoop, ih hes]
    | cdata d2 => simp [findLocLoop, ih hes]
    | other => simp [findLocLoop, ih hes]

/-- C8: when no start tag of the document satisfies the matcher, the scan
reaches end-of-document without a location, so the rewrite path never runs:
the file's lines are returned unchanged and the operation reports `false`. -/
theorem remove_element_no_match_unchanged (m : ElementMatcher)
    (events : List XEvent) (lines : List Str)
    (h : ∀ e ∈ events, isMatchingStart m e = false) :
    remove_element m events lines = (lines, false) := by
  rw [remove_element, find_location_to_strip, findLocLoop_none_of_no_match m events h]

/-- Witness for C8 at a concrete input: the flat example file, which declares
only `"a"`, against a matcher requiring `name="z"`. -/
theorem remove_element_no_match_unchanged_witness :
    (∀ e ∈ flatEvents, isMatchingStart matcherZ e = false) ∧
      remove_element matcherZ flatEvents resLines = (resLines, false) :=
  ⟨by decide, remove_element_no_match_unchanged matcherZ flatEvents resLines (by decide)⟩

theorem usesOfText_nil (t : Str) (h : containsSub atStringMarker t = false) :
    usesOfText t = [] := by
  simp [usesOfText, h]

theorem usesOfEvent_nil (e : XEvent)
    (h : ∀ t ∈ eventTexts e, containsSub atStringMarker t = false) :
    usesOfEvent e = [] := by
  cases e with
  | startElement name attrs row =>
    simp only [usesOfEvent, usesOfAttrs, List.flatMap_eq_nil_iff]
    intro a ha
    exact usesOfText_nil a.value (h a.value (by simp [eventTexts]; exact ⟨a, ha, rfl⟩))
  | endElement row => rfl
  | cdata d =>
    simp only [usesOfEvent]
    exact usesOfText_nil d (h d (by simp [eventTexts]))
  | other => rfl

theorem indexXmlLoop_uses_nil (events : List XEvent)
    (h : ∀ e ∈ events, ∀ t ∈ eventTexts e, containsSub atStringMarker t = false) :
    (indexXmlLoop events).2 = [] := by
  induction events with
  | nil => rfl
  | cons e es ih =>
    simp [indexXmlLoop, usesOfEvent_nil e (h e (by simp)),
      ih (fun x hx => h x (by simp [hx]))]

theorem indexXmlLoop_defs (events : List XEvent) :
    (indexXmlLoop events).1 = events.flatMap defsOfEvent := by
  induction events with
  | nil => rfl
  | cons e es ih => simp [indexXmlLoop, ih]

theorem defsOfEvent_nil (e : XEvent) (h : isStringStart e = false) :
    defsOfEvent e = [] := by
  cases e with
  | startElement name attrs row =>
    have hb : (name == stringName) = false := h
    simp [defsOfEvent, defsOfStart, hb]
  | endElement row => rfl
  | cdata d => rfl
  | other => rfl

/-- C9: a resource document whose only `string` start tag carries exactly one
`name`-named attribute, with value `X`, and none of whose attribute values or
CDATA sections contain the marker `@string`, indexes to exactly the
declaration list `[X]` and an empty usage list. -/
theorem xml_extractor_single_declaration (path X : Str) (es1 es2 : List XEvent)
    (attrs : List Attr) (row : Nat)
    (hattrs : (attrs.filter fun a => a.name == nameAttr).map Attr.value = [X])
    (hno : ∀ e ∈ es1 ++ es2, isStringStart e = false)
    (htext : ∀ e ∈ es1 ++ XEvent.startElement stringName attrs row :: es2,
      ∀ t ∈ eventTexts e, containsSub atStringMarker t = false) :
    index_xml_file path (es1 ++ XEvent.startElement stringName attrs row :: es2) =
      ⟨path, [X], []⟩ := by
  have hdefs1 : es1.flatMap defsOfEvent = [] := by
    rw [List.flatMap_eq_nil_iff]
    exact fun e he => defsOfEvent_nil e (hno e (by simp [he]))
  have hdefs2 : es2.flatMap defsOfEvent = [] := by
    rw [List.flatMap_eq_nil_iff]
    exact fun e he => defsOfEvent_nil e (hno e (by simp [he]))
  have hmid : defsOfEvent (XEvent.startElement stringName attrs row) = [X] := by
    simp [defsOfEvent, defsOfStart, hattrs]
  have huses := indexXmlLoop_uses_nil _ htext
  simp [index_xml_file, indexXmlLoop_defs, hdefs1, hdefs2, hmid, huses]

/-- Witness for C9: `<resources><string name="someApp" value="My App"/></resources>`. -/
theorem xml_extractor_single_declaration_witness :
    index_xml_file "r.xml".toList
        ([XEvent.startElement "resources".toList [] 0] ++
          XEvent.startElement stringName
            [⟨nameAttr, "someApp".toList⟩, ⟨"value".toList, "My App".toList⟩] 0 ::
          [XEvent.endElement 0, XEvent.endElement 0]) =
      ⟨"r.xml".toList, ["someApp".toList], []⟩ :=
  xml_extractor_single_declaration "r.xml".toList "someApp".toList _ _ _ _
    (by decide) (by decide) (by decide)

theorem isPrefixOfB_self_append (p r : Str) : isPrefixOfB p (p ++ r) = true := by
  induction p with
  | nil => rfl
  | cons c cs ih => simp [isPrefixOfB, ih]

theorem containsSub_of_isPrefixOfB (pat s : Str) (h : isPrefixOfB pat s = true) :
    containsSub pat s = true := by
  cases s with
  | nil =>
    cases pat with
    | nil => rfl
    | cons c cs => exact absurd h (by simp [isPrefixOfB])
  | cons c cs => simp [containsSub, h]

theorem containsSub_append_right (pat pre s : Str) (h : containsSub pat s = true) :
    containsSub pat (pre ++ s) = true := by
  induction pre with
  | nil => simpa
  | cons c cs ih => simp [containsSub, ih]

theorem takeWhile_append_stop (p : Char → Bool) (l1 l2 : Str) (c : Char)
    (h1 : ∀ x ∈ l1, p x = true) (h2 : p c = false) :
    (l1 ++ c :: l2).takeWhile p = l1 := by
  induction l1 with
  | nil => simp [List.takeWhile, h2]
  | cons a as ih =>
    simp only [List.cons_append, List.takeWhile]
    rw [h1 a (by simp)]
    simp [ih (fun x hx => h1 x (by simp [hx]))]

theorem refCaptureAt_ref (id1 : Str) (c0 : Char) (rest : Str) (h1 : id1 ≠ [])
    (hw : ∀ c ∈ id1, wordChar c = true) (hc0 : wordChar c0 = false) :
    refCaptureAt (atStringPat ++ (id1 ++ c0 :: rest)) = some id1 := by
  cases id1 with
  | nil => exact absurd rfl h1
  | cons d ds =>
    have hd : wordChar d = true := hw d (by simp)
    have hds : ∀ c ∈ ds, wordChar c = true := fun c hc => hw c (by simp [hc])
    have hdrop : List.drop 8 (atStringPat ++ (d :: (ds ++ c0 :: rest))) =
        d :: (ds ++ c0 :: rest) := List.drop_left atStringPat _
    simp only [refCaptureAt, isPrefixOfB_self_append, if_true, List.cons_append, hdrop]
    simp [hd, takeWhile_append_stop wordChar ds rest c0 hds hc0]

theorem findStringRef_skip_no_at (pre s : Str) (h : ∀ c ∈ pre, c ≠ '@') :
    findStringRef (pre ++ s) = findStringRef s := by
  induction pre with
  | nil => rfl
  | cons c cs ih =>
    have hc : (('@' : Char) == c) = false := by
      have hne := h c (by simp)
      simp [Ne.symm hne]
    have hnone : refCaptureAt (c :: (cs ++ s)) = none := by
      simp [refCaptureAt, atStringPat, atStringMarker, isPrefixOfB, hc]
    have hstep : findStringRef (c :: (cs ++ s)) = findStringRef (cs ++ s) := by
      simp only [findStringRef]
      rw [hnone]
    rw [List.cons_append, hstep]
    exact ih (fun x hx => h x (by simp [hx]))

theorem findStringRef_at_ref (id1 : Str) (c0 : Char) (rest : Str) (h1 : id1 ≠ [])
    (hw : ∀ c ∈ id1, wordChar c = true) (hc0 : wordChar c0 = false) :
    findStringRef (atStringPat ++ (id1 ++ c0 :: rest)) = some id1 := by
  have hcap := refCaptureAt_ref id1 c0 rest h1 hw hc0
  rw [show atStringPat ++ (id1 ++ c0 :: rest) =
    '@' :: (['s', 't', 'r', 'i', 'n', 'g', '/'] ++ (id1 ++ c0 :: rest)) from rfl] at hcap ⊢
  simp only [findStringRef]
  rw [hcap]

/-- C10: each start-tag attribute value and each CDATA section contributes at
most one usage, and in a text holding two `@string/` references only the first
reference's identifier is recorded. -/
theorem text_usage_first_ref_only :
    (∀ t : Str, (usesOfText t).length ≤ 1) ∧
      (∀ (pre id1 : Str) (c0 : Char) (mid id2 : Str),
        (∀ c ∈ pre, c ≠ '@') → id1 ≠ [] → (∀ c ∈ id1, wordChar c = true) →
          wordChar c0 = false → id2 ≠ [] → (∀ c ∈ id2, wordChar c = true) →
          usesOfText
              (pre ++ (atStringPat ++ (id1 ++ c0 :: (mid ++ (atStringPat ++ id2))))) =
            [id1]) := by
  constructor
  · intro t
    unfold usesOfText
    split
    · split <;> simp
    · simp
  · intro pre id1 c0 mid id2 hpre h1 hw hc0 _ _
    have hcontains : containsSub atStringMarker
        (pre ++ (atStringPat ++ (id1 ++ c0 :: (mid ++ (atStringPat ++ id2))))) = true := by
      apply containsSub_append_right
      apply containsSub_of_isPrefixOfB
      rw [show atStringPat ++ (id1 ++ c0 :: (mid ++ (atStringPat ++ id2))) =
        atStringMarker ++ (['/'] ++ (id1 ++ c0 :: (mid ++ (atStringPat ++ id2)))) by
          rw [atStringPat, List.append_assoc]]
      exact isPrefixOfB_self_append _ _
    have hfind : findStringRef
        (pre ++ (atStringPat ++ (id1 ++ c0 :: (mid ++ (atStringPat ++ id2))))) =
          some id1 := by
      rw [findStringRef_skip_no_at pre _ hpre]
      exact findStringRef_at_ref id1 c0 _ h1 hw hc0
    simp [usesOfText, hcontains, hfind]

/-- Witness for C10: the text `x@string/aa,@string/bb` holds two references
and yields exactly the first identifier. -/
theorem text_usage_first_ref_only_witness :
    (usesOfText "x@string/aa,@string/bb".toList).length ≤ 1 ∧
      usesOfText ("x".toList ++ (atStringPat ++ ("aa".toList ++ ',' ::
          ([] ++ (atStringPat ++ "bb".toList))))) = ["aa".toList] :=
  ⟨text_usage_first_ref_only.1 _,
    text_usage_first_ref_only.2 "x".toList "aa".toList ',' [] "bb".toList
      (by decide) (by decide) (by decide) (by decide) (by decide) (by decide)⟩

/-- C7 (command layer modelled from the spec): every identifier the
`list-unused` and `remove-unused` commands report or act upon contains none of
the denylist substrings, and the unused count `counts` reports is the size of
the same filtered set. -/
theorem commands_exclude_denylisted (deny : List Str) (pre : Str)
    (idx : ResourceIndex) (id : Str) :
    (id ∈ list_unused_command deny idx → ∀ s ∈ deny, containsSub s id = false) ∧
      (id ∈ remove_unused_targets deny pre idx → ∀ s ∈ deny, containsSub s id = false) ∧
      (counts_command deny idx).2.2 = (filtered_unused deny idx).card := by
  have key : ∀ x : Str, x ∈ filtered_unused deny idx →
      ∀ s ∈ deny, containsSub s x = false := by
    intro x hx s hs
    rw [filtered_unused, Finset.mem_filter] at hx
    have hclean := hx.2
    rw [cleanOfDenylist, List.all_eq_true] at hclean
    simpa using hclean s hs
  refine ⟨fun h => key id h, fun h => ?_, rfl⟩
  rw [remove_unused_targets, Finset.mem_filter] at h
  exact key id h.1

/-- Witness for C7: with denylist `["_female"]` and a file declaring
`a_female` and `b` (neither used), `b` is listed unused and is clean. -/
theorem commands_exclude_denylisted_witness :
    "b".toList ∈ list_unused_command ["_female".toList]
        ⟨[⟨"f.xml".toList, ["a_female".toList, "b".toList], []⟩]⟩ ∧
      ∀ s ∈ ["_female".toList], containsSub s "b".toList = false :=
  ⟨by decide,
    (commands_exclude_denylisted ["_female".toList] []
      ⟨[⟨"f.xml".toList, ["a_female".toList, "b".toList], []⟩]⟩ "b".toList).1 (by decide)⟩
